import Mathlib

/-!
Shallow embedding of the GitHub repository extractor (src/app.py).

The program clones a repository into a temporary directory, renders an
ASCII tree of it, enumerates its files with fixed exclusion rules, wraps
each file's text in a tagged block, joins everything into one document and
removes the temporary directory again.  Here the cloned file system is an
explicit tree of entries, the external `git` binary is a parameter giving
the outcome of a clone invocation, and the orchestrator additionally
returns the ordered trace of the side effects it performs, so that the
claims about cleanup and about the order of the steps can be stated.
-/

namespace RepoExtractor

/-- A file-system entry inside the cloned workspace.  A file carries the
outcome of reading it as UTF-8 text: `.ok content`, or `.error msg` when
the read raises an exception whose message is `msg`.  The workspace is
immutable during one extraction, so the read outcome is part of the tree. -/
inductive FSEntry where
  | file (name : String) (readResult : Except String String)
  | dir (name : String) (children : List FSEntry)

/-- The name of an entry, as `os.listdir` reports it. -/
def childName : FSEntry → String
  | .file n _ => n
  | .dir n _ => n

/-- The children of an entry: a directory's entries, `[]` for a file. -/
def childrenOf : FSEntry → List FSEntry
  | .file _ _ => []
  | .dir _ c => c

/-- Model of POSIX `os.path.join root name` for the use made of it in
src/app.py (a root with no trailing separator, a relative name):
concatenation with a single `/` separator. -/
def pathJoin (root : String) (name : String) : String :=
  root ++ "/" ++ name

/-- Model of `os.path.relpath p start` for the use made of it in
src/app.py: `p` is a path produced by joining file names under `start`,
so the relative path is `p` with the prefix `start ++ "/"` removed. -/
def relpath (p start : String) : String :=
  let startSlash := start.data ++ ['/']
  if startSlash.isPrefixOf p.data then { data := p.data.drop startSlash.length } else p

/-- Model of Python `str.lower()`: character-wise ASCII case folding. -/
def pyLower (s : String) : String :=
  { data := s.data.map Char.toLower }

/-- Model of Python `str.startswith(p)`: `p` is a prefix of the string. -/
def pyStartsWith (s p : String) : Bool :=
  p.data.isPrefixOf s.data

/-- The per-file exclusion test of `get_all_files` in src/app.py: the three
`continue` conditions of its inner loop, in order. -/
def excludedFile (file : String) : Bool :=
  file == ".env" ||
    (pyStartsWith (pyLower file) "readme.md" || pyStartsWith (pyLower file) "requirements.txt") ||
    pyStartsWith (pyLower file) "."

/-- The exclusion rule as the specification words it: case-insensitively,
exactly `.env`, a `readme.md` prefix, a `requirements.txt` prefix, or a
leading `.`. -/
def specExcludedFile (file : String) : Bool :=
  pyLower file == ".env" ||
    pyStartsWith (pyLower file) "readme.md" ||
    pyStartsWith (pyLower file) "requirements.txt" ||
    pyStartsWith (pyLower file) "."

/-- Function `format_file_content` from src/app.py.  Opening and reading the file is
the `readResult` argument (the read outcome is part of the workspace tree);
on a read failure the handler substitutes `"Error reading file: " ++ msg`
for the content.  The result wraps the content between `<relative/path>`
and `</relative/path>` lines. -/
def format_file_content (file_path repo_root : String)
    (readResult : Except String String) : String :=
  let content :=
    match readResult with
    | .ok c => c
    | .error e => "Error reading file: " ++ e
  let relative_path := relpath file_path repo_root
  "<" ++ relative_path ++ ">\n" ++ content ++ "\n</" ++ relative_path ++ ">"

/-- Model of Python `str.strip()` (restricted to ASCII whitespace): drop
whitespace from both ends. -/
def pyStrip (s : String) : String :=
  { data := ((s.data.dropWhile Char.isWhitespace).reverse.dropWhile Char.isWhitespace).reverse }

/-- Insert an entry into a list already sorted by name (names are compared
as Python compares strings: code-point lexicographic). -/
def insertSorted (e : FSEntry) : List FSEntry → List FSEntry
  | [] => [e]
  | x :: xs => if childName e ≤ childName x then e :: x :: xs else x :: insertSorted e xs

/-- Stable insertion sort by entry name: model of `sorted(os.listdir(d))`. -/
def sortByName : List FSEntry → List FSEntry
  | [] => []
  | x :: xs => insertSorted x (sortByName xs)

/-- The per-item filter of `build_file_tree`:
`item not in ['.git', '.env']`. -/
def keepEntry (e : FSEntry) : Bool :=
  childName e != ".git" && childName e != ".env"

/-- The entries `build_file_tree` iterates over at one level:
`sorted(os.listdir(directory))` with `.git` and `.env` filtered out. -/
def sortedFiltered (entries : List FSEntry) : List FSEntry :=
  (sortByName entries).filter keepEntry

theorem sizeOf_filter_le (p : FSEntry → Bool) (l : List FSEntry) :
    sizeOf (l.filter p) ≤ sizeOf l := by
  induction l with
  | nil => simp [List.filter]
  | cons a t ih =>
    cases h : p a <;> simp [List.filter, h] <;> omega

theorem sizeOf_insertSorted (e : FSEntry) (l : List FSEntry) :
    sizeOf (insertSorted e l) = 1 + sizeOf e + sizeOf l := by
  induction l with
  | nil => simp [insertSorted]
  | cons x xs ih =>
    by_cases h : childName e ≤ childName x
    · simp [insertSorted, h]
    · simp [insertSorted, h, ih]
      omega

theorem sizeOf_sortByName (l : List FSEntry) : sizeOf (sortByName l) = sizeOf l := by
  induction l with
  | nil => rfl
  | cons x xs ih => simp [sortByName, sizeOf_insertSorted, ih]

theorem sizeOf_sortedFiltered_le (l : List FSEntry) :
    sizeOf (sortedFiltered l) ≤ sizeOf l := by
  have h := sizeOf_filter_le keepEntry (sortByName l)
  simpa [sortedFiltered, sizeOf_sortByName] using h

theorem mem_insertSorted {x e : FSEntry} {l : List FSEntry} :
    x ∈ insertSorted e l ↔ x = e ∨ x ∈ l := by
  induction l with
  | nil => simp [insertSorted]
  | cons a t ih =>
    by_cases h : childName e ≤ childName a <;> simp [insertSorted, h, ih] <;> tauto

theorem mem_sortByName {x : FSEntry} {l : List FSEntry} :
    x ∈ sortByName l ↔ x ∈ l := by
  induction l with
  | nil => simp [sortByName]
  | cons a t ih => simp [sortByName, mem_insertSorted, ih]

theorem mem_of_mem_sortedFiltered {x : FSEntry} {l : List FSEntry}
    (h : x ∈ sortedFiltered l) : x ∈ l := by
  have h' := List.mem_of_mem_filter h
  exact mem_sortByName.mp h'

theorem sizeOf_lt_of_mem_sortedFiltered {x : FSEntry} {l : List FSEntry}
    (h : x ∈ sortedFiltered l) : sizeOf x < sizeOf l :=
  List.sizeOf_lt_of_mem (mem_of_mem_sortedFiltered h)

/-- The inner `for file in files` loop of `get_all_files` in src/app.py:
the non-excluded files of one directory listing, in listing order, joined
to the directory's path and paired with their read outcome. -/
def filesHere (directory : String) : List FSEntry → List (String × Except String String)
  | [] => []
  | .file n r :: rest =>
    (if excludedFile n then [] else [(pathJoin directory n, r)]) ++ filesHere directory rest
  | .dir _ _ :: rest => filesHere directory rest

mutual
/-- Function `get_all_files` from src/app.py, i.e. `os.walk(directory)` top-down:
the current directory's files first (with the exclusion rules applied),
then the subdirectories in listing order, with every `.git` directory
pruned.  Each returned path is paired with the outcome of reading that
file, which in this embedding stands for the file the later `open` of that
path would find. -/
def get_all_files (directory : String) (entries : List FSEntry) :
    List (String × Except String String) :=
  filesHere directory entries ++ walkSubdirs directory entries
termination_by 2 * sizeOf entries + 1

/-- The recursion of `os.walk` into the subdirectories of one listing,
after `dirs[:] = [d for d in dirs if d != '.git']`. -/
def walkSubdirs (directory : String) : List FSEntry → List (String × Except String String)
  | [] => []
  | .file _ _ :: rest => walkSubdirs directory rest
  | .dir n children :: rest =>
    (if n == ".git" then []
     else get_all_files (pathJoin directory n) children) ++ walkSubdirs directory rest
termination_by l => 2 * sizeOf l
decreasing_by all_goals (simp_wf; try omega)
end

mutual
/-- Function `build_file_tree` from src/app.py: sort the directory listing, filter
out `.git` and `.env`, then render each remaining entry. -/
def build_file_tree (entries : List FSEntry) (pre : String) : String :=
  renderLevel (sortedFiltered entries) pre
termination_by 2 * sizeOf entries + 2
decreasing_by
  simp_wf
  have h := sizeOf_sortedFiltered_le entries
  omega

/-- The `for i, item in enumerate(items)` loop of `build_file_tree`: the
connector is `"└── "` exactly when the item is the last of the level
(`i == len(items) - 1`, i.e. the rest of the list is empty), the line is
`prefix + connector + item + "\n"`, and below it comes the item's subtree,
with the prefix extended by `"    "` for the last item and `"│   "`
otherwise. -/
def renderLevel : List FSEntry → String → String
  | [], _ => ""
  | e :: rest, pre =>
    let connector := if rest.isEmpty then "└── " else "├── "
    let line := pre ++ connector ++ childName e ++ "\n"
    let extension := if rest.isEmpty then "    " else "│   "
    line ++ renderSub e (pre ++ extension) ++ renderLevel rest pre
termination_by l _ => 2 * sizeOf l
decreasing_by all_goals (simp_wf; try omega)

/-- The `if os.path.isdir(full_path)` body of `build_file_tree`: the
recursive rendering of a subdirectory's children, nothing for a file. -/
def renderSub (e : FSEntry) (pre : String) : String :=
  match e with
  | .dir _ children => build_file_tree children pre
  | .file _ _ => ""
termination_by 2 * sizeOf e + 1
decreasing_by
  simp_wf
  try omega
end

mutual
/-- The names for which `build_file_tree` emits a listing line, at any
depth: the same per-level sort and `.git`/`.env` filter, and the same
recursion into subdirectories, collecting the listed names instead of
rendering them. -/
def treeListedNames (entries : List FSEntry) : List String :=
  listedLevel (sortedFiltered entries)
termination_by 2 * sizeOf entries + 1
decreasing_by
  simp_wf
  have h := sizeOf_sortedFiltered_le entries
  omega

/-- One level of `treeListedNames`. -/
def listedLevel : List FSEntry → List String
  | [] => []
  | e :: rest =>
    childName e ::
      ((match e with
        | .dir _ children => treeListedNames children
        | .file _ _ => []) ++ listedLevel rest)
termination_by l => 2 * sizeOf l
decreasing_by all_goals (simp_wf; try omega)
end

mutual
/-- Tree rendering as the specification words it (§4.3): the non-excluded
entries of each level in lexicographic order, each prefixed with `"├── "`
except the last, which gets `"└── "`, and a subdirectory's children
rendered below it with the prefix extended by `"│   "` (`"    "` for the
last entry), depth-first. -/
def treeRenderSpec (entries : List FSEntry) (pre : String) : String :=
  specLevel (sortedFiltered entries) pre
termination_by 2 * sizeOf entries + 2
decreasing_by
  simp_wf
  have h := sizeOf_sortedFiltered_le entries
  omega

/-- One level of `treeRenderSpec`: every entry but the last with its
connector and subtree, then the last entry with its connector and subtree. -/
def specLevel (items : List FSEntry) (pre : String) : String :=
  match h : items.getLast? with
  | none => ""
  | some lastE =>
    String.join (items.dropLast.attach.map (fun q =>
      pre ++ "├── " ++ childName q.1 ++ "\n" ++ specSub q.1 (pre ++ "│   "))) ++
      (pre ++ "└── " ++ childName lastE ++ "\n" ++ specSub lastE (pre ++ "    "))
termination_by 2 * sizeOf items + 1
decreasing_by
  · simp_wf
    have h1 := List.sizeOf_lt_of_mem ((List.dropLast_sublist items).subset q.2)
    omega
  · simp_wf
    have h1 := List.sizeOf_lt_of_mem (List.mem_of_getLast?_eq_some h)
    omega

/-- The text below one listed entry in `treeRenderSpec`: the rendering of a
subdirectory's children, nothing for a file. -/
def specSub (e : FSEntry) (pre : String) : String :=
  match e with
  | .dir _ children => treeRenderSpec children pre
  | .file _ _ => ""
termination_by 2 * sizeOf e + 1
decreasing_by
  simp_wf
  omega
end

mutual
/-- The tree with every entry named `.git` or `.env` deleted, at every
depth. -/
def scrubGitEnv : List FSEntry → List FSEntry
  | [] => []
  | e :: rest =>
    (if keepEntry e then [scrubChildren e] else []) ++ scrubGitEnv rest
termination_by l => 2 * sizeOf l
decreasing_by all_goals (simp_wf; try omega)

/-- Scrubbing inside one entry: a directory's children are scrubbed, a
file is kept as it is. -/
def scrubChildren : FSEntry → FSEntry
  | .file n r => .file n r
  | .dir n c => .dir n (scrubGitEnv c)
termination_by e => 2 * sizeOf e + 1
decreasing_by
  simp_wf
  try omega
end

/-- The side effects one extraction performs, in the order it performs
them: creating the temporary workspace, invoking `git clone` (with its
success), rendering the file tree, enumerating the files, formatting one
file, removing the workspace, joining the output parts. -/
inductive Event where
  | mkdtemp
  | gitClone (ok : Bool)
  | renderTree
  | enumerate
  | formatFile (path : String)
  | rmtree
  | joinOutput
deriving DecidableEq

/-- The observable behavior of the external `git` binary: for a repository
URL and a target directory, the tree of entries it populates the directory
with when it exits zero, or `none` when it exits non-zero. -/
def GitBehavior : Type := String → String → Option (List FSEntry)

/-- The message of the exception `clone_github_repo` raises when the
subprocess exits non-zero. -/
def cloneErrorMsg : String :=
  "Error cloning repository. Please ensure the URL is correct and that you have the necessary permissions."

/-- Function `clone_github_repo` from src/app.py: the `subprocess.run` call with `check=True`
raises `CalledProcessError` on a non-zero exit, which the handler re-raises
as a generic exception whose message is `cloneErrorMsg`. -/
def clone_github_repo (git : GitBehavior) (repo_url target_dir : String) :
    Except String (List FSEntry) :=
  match git repo_url target_dir with
  | some tree => .ok tree
  | none => .error cloneErrorMsg

/-- The separator appended after the file tree: 40 dashes, `"-" * 40`. -/
def separatorLine : String := String.mk (List.replicate 40 '-')

/-- Function `extract_repo_contents` from src/app.py.  `temp_dir` is the directory
`tempfile.mkdtemp()` returns; the second component is the ordered trace of
side effects.  When the clone raises, the `finally` block removes the
workspace and the exception propagates, so nothing is rendered, enumerated
or formatted.  On success the `finally` block runs when the `try` suite is
done — after the last file is formatted — and `"\n".join(output_parts)`
runs after the `try` statement, i.e. after the workspace is removed. -/
def extract_repo_contents (git : GitBehavior) (temp_dir repo_url : String) :
    Except String String × List Event :=
  match clone_github_repo git repo_url temp_dir with
  | .error e => (.error e, [.mkdtemp, .gitClone false, .rmtree])
  | .ok tree =>
    let file_tree := build_file_tree tree ""
    let all_files := get_all_files temp_dir tree
    let output_parts :=
      ["File Tree:", file_tree, separatorLine] ++
        all_files.map fun f => format_file_content f.1 temp_dir f.2
    let final_output := String.intercalate "\n" output_parts
    (.ok final_output,
      [.mkdtemp, .gitClone true, .renderTree, .enumerate] ++
        (all_files.map fun f => Event.formatFile f.1) ++ [.rmtree, .joinOutput])

/-- The error-dialog text shown for an empty URL. -/
def urlErrorMsg : String := "Please enter a valid GitHub repository URL."

/-- What one activation of the Extract button leaves behind: the trace of
extraction side effects (empty when extraction was never attempted), the
final contents of the output text area, and the message of the error
dialog, when one was shown. -/
structure UIOutcome where
  events : List Event
  textOutput : String
  dialog : Option String
deriving DecidableEq

/-- Function `on_extract` from src/app.py: strip the URL field; when the result is
empty, show the error dialog and return without touching the text area;
otherwise run the extraction and show either its output, or its error both
inline in the text area and as a dialog.  `entryText` is the content of
the URL field and `prevText` the text area's previous content. -/
def on_extract (git : GitBehavior) (temp_dir entryText prevText : String) : UIOutcome :=
  let repo_url := pyStrip entryText
  if repo_url = "" then
    { events := [], textOutput := prevText, dialog := some urlErrorMsg }
  else
    match extract_repo_contents git temp_dir repo_url with
    | (.ok final_output, evs) =>
      { events := evs, textOutput := final_output, dialog := none }
    | (.error e, evs) =>
      { events := evs, textOutput := "An error occurred:\n" ++ e,
        dialog := some ("An error occurred: " ++ e) }

/-- The repository of the specification's enumerator scenario: files
`README.md`, `a.py`, `.env` and a subdirectory `.git` containing `config`. -/
def exampleRepo : List FSEntry :=
  [ .file "README.md" (.ok "# Demo"),
    .file "a.py" (.ok "print(1)"),
    .file ".env" (.ok "SECRET=1"),
    .dir ".git" [.file "config" (.ok "[core]")] ]

theorem relpath_pathJoin (root rel : String) : relpath (pathJoin root rel) root = rel := by
  have hdata : (pathJoin root rel).data = (root.data ++ ['/']) ++ rel.data := by
    show (root ++ "/" ++ rel).data = _
    simp
  unfold relpath
  rw [hdata]
  have hpre : (root.data ++ ['/']).isPrefixOf ((root.data ++ ['/']) ++ rel.data) = true :=
    List.isPrefixOf_iff_prefix.mpr (List.prefix_append _ _)
  simp only [hpre, if_true]
  apply String.ext
  show ((root.data ++ ['/']) ++ rel.data).drop (root.data ++ ['/']).length = rel.data
  exact List.drop_left _ _

theorem excludedFile_eq_spec (s : String) : excludedFile s = specExcludedFile s := by
  unfold excludedFile specExcludedFile
  cases hd : pyStartsWith (pyLower s) "." with
  | true => simp [hd]
  | false =>
    have h1 : (s == ".env") = false := by
      cases he : s == ".env"
      · rfl
      · have hs : s = ".env" := by simpa using he
        subst hs
        exact absurd hd (by decide)
    have h2 : (pyLower s == ".env") = false := by
      cases he : pyLower s == ".env"
      · rfl
      · have hs : pyLower s = ".env" := by simpa using he
        rw [hs] at hd
        exact absurd hd (by decide)
    simp [h1, h2, hd]

/-- C2: a file name is excluded by the File Enumerator exactly when,
case-insensitively, it is `.env`, begins with `readme.md`, begins with
`requirements.txt`, or begins with `.`; and on the scenario repository
(`README.md`, `a.py`, `.env`, `.git/config`) the enumerator returns
exactly the single path `a.py` joined to the root. -/
theorem c2_enumerator_exclusion_rule :
    (∀ s : String, excludedFile s = specExcludedFile s) ∧
    ∀ root : String,
      (get_all_files root exampleRepo).map Prod.fst = [pathJoin root "a.py"] := by
  refine ⟨excludedFile_eq_spec, fun root => ?_⟩
  have h1 : excludedFile "README.md" = true := by decide
  have h2 : excludedFile "a.py" = false := by decide
  have h3 : excludedFile ".env" = true := by decide
  simp [get_all_files, filesHere, walkSubdirs, exampleRepo, h1, h2, h3]

/-- C3: for every successfully read file the File Formatter wraps the
content between `<relative/path>` and `</relative/path>` lines, the
relative path computed against the workspace root; in particular content
`hello` at relative path `src/a.txt` yields exactly
`<src/a.txt>\nhello\n</src/a.txt>`. -/
theorem c3_format_wraps_content :
    (∀ (repo_root rel content : String),
        format_file_content (pathJoin repo_root rel) repo_root (Except.ok content) =
          "<" ++ rel ++ ">\n" ++ content ++ "\n</" ++ rel ++ ">") ∧
    format_file_content (pathJoin "/tmp/repo" "src/a.txt") "/tmp/repo" (Except.ok "hello") =
      "<src/a.txt>\nhello\n</src/a.txt>" := by
  constructor
  · intro repo_root rel content
    simp [format_file_content, relpath_pathJoin]
  · simp [format_file_content, relpath_pathJoin]

/-- C5 counterexample: on a read failure with exception message `boom`,
the formatter does not substitute the exception message itself as the
file's content — the block content is `Error reading file: boom`, not
`boom`. -/
theorem c5_counterexample :
    format_file_content (pathJoin "/tmp/repo" "a.txt") "/tmp/repo" (Except.error "boom") ≠
      "<a.txt>\nboom\n</a.txt>" := by decide

/-- C5 (amended): on any read failure the formatter does not propagate the
error: it substitutes `Error reading file: ` followed by the exception
message as that file's content inside the tagged block, and an extraction
whose clone succeeded always completes with an output document, whatever
read failures the tree contains. -/
theorem c5_read_failure_inlined :
    (∀ (file_path repo_root msg : String),
        format_file_content file_path repo_root (Except.error msg) =
          "<" ++ relpath file_path repo_root ++ ">\n" ++
            ("Error reading file: " ++ msg) ++
            "\n</" ++ relpath file_path repo_root ++ ">") ∧
    (∀ (temp_dir repo_url : String) (tree : List FSEntry),
        ∃ out, (extract_repo_contents (fun _ _ => some tree) temp_dir repo_url).1 =
          Except.ok out) := by
  constructor
  · intro fp rr msg
    simp [format_file_content]
  · intro td ru tree
    exact ⟨_, rfl⟩

/-- C8: when the URL field is the empty string, extraction is never
attempted (no workspace is created and no clone invoked: the event trace
is empty), the text area is left alone, and the error dialog says
`Please enter a valid GitHub repository URL.`. -/
theorem c8_empty_url_no_extraction (git : GitBehavior) (temp_dir prev : String) :
    on_extract git temp_dir "" prev =
      { events := [], textOutput := prev, dialog := some urlErrorMsg } := by
  unfold on_extract
  have h : pyStrip "" = "" := rfl
  rw [h]
  simp

theorem pyStrip_eq_empty {s : String} (h : ∀ c ∈ s.data, c.isWhitespace = true) :
    pyStrip s = "" := by
  apply String.ext
  have h1 : s.data.dropWhile Char.isWhitespace = [] :=
    List.dropWhile_eq_nil_iff.mpr (fun x hx => by simpa using h x hx)
  show ((s.data.dropWhile Char.isWhitespace).reverse.dropWhile Char.isWhitespace).reverse = "".data
  simp [h1]

/-- C10: a URL input consisting only of whitespace characters is stripped
to the empty string: the handler shows the same error dialog as for the
empty input, leaves the text area alone, and never attempts extraction. -/
theorem c10_whitespace_url_no_extraction (git : GitBehavior) (temp_dir prev s : String)
    (h : ∀ c ∈ s.data, c.isWhitespace = true) :
    on_extract git temp_dir s prev =
      { events := [], textOutput := prev, dialog := some urlErrorMsg } := by
  unfold on_extract
  rw [pyStrip_eq_empty h]
  simp

theorem c10_whitespace_url_no_extraction_witness :
    (∀ c ∈ ("  \t ").data, c.isWhitespace = true) ∧
    on_extract (fun _ _ => none) "/tmp/ws" "  \t " "prev" =
      { events := [], textOutput := "prev", dialog := some urlErrorMsg } :=
  ⟨by decide, c10_whitespace_url_no_extraction (fun _ _ => none) "/tmp/ws" "prev" "  \t "
    (by decide)⟩

theorem count_rmtree_formatFiles (l : List (String × Except String String)) :
    (l.map fun f => Event.formatFile f.1).count Event.rmtree = 0 := by
  induction l with
  | nil => rfl
  | cons a t ih => simp [List.count_cons, ih]

/-- C1: for every git behavior, temporary directory and repository URL,
the orchestrator's event trace contains exactly one removal of the
temporary workspace — on the success path, on the clone-failure path, and
whatever per-file read failures the tree contains. -/
theorem c1_workspace_removed_exactly_once (git : GitBehavior) (temp_dir repo_url : String) :
    (extract_repo_contents git temp_dir repo_url).2.count Event.rmtree = 1 := by
  unfold extract_repo_contents clone_github_repo
  cases git repo_url temp_dir with
  | none => rfl
  | some tree => simp [List.count_append, List.count_cons, count_rmtree_formatFiles]

/-- C4: when the clone exits non-zero, the raised failure's message
contains `Error cloning repository`; the extraction aborts with no tree
rendering, enumeration or file formatting in its trace, the workspace is
still removed, and the failure propagates to the button handler, which
displays it inline and as an error dialog. -/
theorem c4_clone_failure (git : GitBehavior) (temp_dir url prev : String)
    (hfail : git url temp_dir = none) (hurl : url ≠ "") (hstrip : pyStrip url = url) :
    (extract_repo_contents git temp_dir url).1 = Except.error cloneErrorMsg ∧
    (∃ a b, cloneErrorMsg = a ++ "Error cloning repository" ++ b) ∧
    (extract_repo_contents git temp_dir url).2 =
      [Event.mkdtemp, Event.gitClone false, Event.rmtree] ∧
    on_extract git temp_dir url prev =
      { events := [Event.mkdtemp, Event.gitClone false, Event.rmtree],
        textOutput := "An error occurred:\n" ++ cloneErrorMsg,
        dialog := some ("An error occurred: " ++ cloneErrorMsg) } := by
  have hex : extract_repo_contents git temp_dir url =
      (Except.error cloneErrorMsg, [Event.mkdtemp, Event.gitClone false, Event.rmtree]) := by
    unfold extract_repo_contents clone_github_repo
    rw [hfail]
  refine ⟨by rw [hex],
    ⟨"", ". Please ensure the URL is correct and that you have the necessary permissions.",
      by decide⟩,
    by rw [hex], ?_⟩
  unfold on_extract
  rw [hstrip, if_neg hurl, hex]

theorem c4_clone_failure_witness :
    ((fun (_ _ : String) => (none : Option (List FSEntry)))
        "https://github.com/u/r.git" "/tmp/ws" = none) ∧
    ("https://github.com/u/r.git" : String) ≠ "" ∧
    pyStrip "https://github.com/u/r.git" = "https://github.com/u/r.git" ∧
    ((extract_repo_contents (fun _ _ => none) "/tmp/ws" "https://github.com/u/r.git").1 =
        Except.error cloneErrorMsg ∧
      (∃ a b, cloneErrorMsg = a ++ "Error cloning repository" ++ b) ∧
      (extract_repo_contents (fun _ _ => none) "/tmp/ws" "https://github.com/u/r.git").2 =
        [Event.mkdtemp, Event.gitClone false, Event.rmtree] ∧
      on_extract (fun _ _ => none) "/tmp/ws" "https://github.com/u/r.git" "prev" =
        { events := [Event.mkdtemp, Event.gitClone false, Event.rmtree],
          textOutput := "An error occurred:\n" ++ cloneErrorMsg,
          dialog := some ("An error occurred: " ++ cloneErrorMsg) }) :=
  ⟨rfl, by decide, by decide,
    c4_clone_failure (fun _ _ => none) "/tmp/ws" "https://github.com/u/r.git" "prev"
      rfl (by decide) (by decide)⟩

/-- C9 counterexample: on a successful extraction of a repository holding
the single file `a.py`, the workspace-removal event appears strictly
before the join event in the orchestrator's trace — the claimed order
(format each file, then join, then remove the workspace) does not hold,
because the `finally` block removes the workspace before the join that
runs after the `try` statement. -/
theorem c9_counterexample :
    (extract_repo_contents (fun _ _ => some [FSEntry.file "a.py" (Except.ok "pass")])
        "/tmp/ws" "https://example.com/r.git").2.indexOf Event.rmtree <
      (extract_repo_contents (fun _ _ => some [FSEntry.file "a.py" (Except.ok "pass")])
        "/tmp/ws" "https://example.com/r.git").2.indexOf Event.joinOutput := by
  have h2 : excludedFile "a.py" = false := by decide
  have htr : (extract_repo_contents (fun _ _ => some [FSEntry.file "a.py" (Except.ok "pass")])
      "/tmp/ws" "https://example.com/r.git").2 =
      [Event.mkdtemp, Event.gitClone true, Event.renderTree, Event.enumerate,
        Event.formatFile (pathJoin "/tmp/ws" "a.py"), Event.rmtree, Event.joinOutput] := by
    unfold extract_repo_contents clone_github_repo
    simp [get_all_files, filesHere, walkSubdirs, h2]
  rw [htr]
  decide

/-- C9 (amended): for every successful extraction the output document is
the tree header, the tree, the separator, then one formatted block per
enumerated file in enumeration order, joined with newlines; and the steps
run strictly in the order create workspace, fetch, render tree, enumerate,
format each file, remove workspace, join — the workspace removal (the
`finally` block) precedes the join, which runs after the `try` statement. -/
theorem c9_success_document_and_order (git : GitBehavior) (temp_dir repo_url : String)
    (tree : List FSEntry) (h : git repo_url temp_dir = some tree) :
    extract_repo_contents git temp_dir repo_url =
      (Except.ok (String.intercalate "\n"
          (["File Tree:", build_file_tree tree "", separatorLine] ++
            (get_all_files temp_dir tree).map fun f => format_file_content f.1 temp_dir f.2)),
        [Event.mkdtemp, Event.gitClone true, Event.renderTree, Event.enumerate] ++
          ((get_all_files temp_dir tree).map fun f => Event.formatFile f.1) ++
          [Event.rmtree, Event.joinOutput]) := by
  unfold extract_repo_contents clone_github_repo
  rw [h]

theorem c9_success_document_and_order_witness :
    ((fun (_ _ : String) => some [FSEntry.file "a.py" (Except.ok "pass")])
        "https://example.com/r.git" "/tmp/ws" = some [FSEntry.file "a.py" (Except.ok "pass")]) ∧
    extract_repo_contents (fun _ _ => some [FSEntry.file "a.py" (Except.ok "pass")])
        "/tmp/ws" "https://example.com/r.git" =
      (Except.ok (String.intercalate "\n"
          (["File Tree:",
              build_file_tree [FSEntry.file "a.py" (Except.ok "pass")] "", separatorLine] ++
            (get_all_files "/tmp/ws" [FSEntry.file "a.py" (Except.ok "pass")]).map
              fun f => format_file_content f.1 "/tmp/ws" f.2)),
        [Event.mkdtemp, Event.gitClone true, Event.renderTree, Event.enumerate] ++
          ((get_all_files "/tmp/ws" [FSEntry.file "a.py" (Except.ok "pass")]).map
            fun f => Event.formatFile f.1) ++
          [Event.rmtree, Event.joinOutput]) :=
  ⟨rfl, c9_success_document_and_order (fun _ _ => some [FSEntry.file "a.py" (Except.ok "pass")])
    "/tmp/ws" "https://example.com/r.git" [FSEntry.file "a.py" (Except.ok "pass")] rfl⟩

theorem listedLevel_cons (e : FSEntry) (rest : List FSEntry) :
    listedLevel (e :: rest) = childName e :: ((match e with
      | FSEntry.dir _ children => treeListedNames children
      | FSEntry.file _ _ => []) ++ listedLevel rest) := by
  rw [listedLevel.eq_def]

theorem mem_listedLevel {x : String} {items : List FSEntry} (hx : x ∈ listedLevel items) :
    ∃ e ∈ items, x = childName e ∨ x ∈ treeListedNames (childrenOf e) := by
  induction items with
  | nil => simp [listedLevel] at hx
  | cons e rest ih =>
    rw [listedLevel_cons] at hx
    rcases List.mem_cons.mp hx with h | h
    · exact ⟨e, List.mem_cons_self e rest, Or.inl h⟩
    · rcases List.mem_append.mp h with h | h
      · refine ⟨e, List.mem_cons_self e rest, Or.inr ?_⟩
        cases e with
        | file n r => simpa [childrenOf] using h
        | dir n c => simpa [childrenOf] using h
      · obtain ⟨e', he', hc⟩ := ih h
        exact ⟨e', List.mem_cons_of_mem e he', hc⟩

theorem treeListedNames_ne_git_env :
    ∀ (n : Nat) (entries : List FSEntry), sizeOf entries ≤ n →
      ∀ x ∈ treeListedNames entries, x ≠ ".git" ∧ x ≠ ".env" := by
  intro n
  induction n with
  | zero =>
    intro entries h x hx
    exact absurd h (by cases entries <;> simp)
  | succ n ih =>
    intro entries hle x hx
    rw [treeListedNames] at hx
    obtain ⟨e, he, hcase⟩ := mem_listedLevel hx
    rcases hcase with rfl | hrec
    · have hf : (childName e != ".git" && childName e != ".env") = true := by
        have h' := he
        rw [sortedFiltered] at h'
        exact (List.mem_filter.mp h').2
      constructor
      · intro hgit
        rw [hgit] at hf
        simp at hf
      · intro henv
        rw [henv] at hf
        simp at hf
    · cases e with
      | file fn fr =>
        simp [childrenOf, treeListedNames, sortedFiltered, sortByName, listedLevel] at hrec
      | dir dn dc =>
        have hmem := mem_of_mem_sortedFiltered he
        have h1 : sizeOf (FSEntry.dir dn dc) < sizeOf entries := List.sizeOf_lt_of_mem hmem
        have h2 : sizeOf dc < sizeOf (FSEntry.dir dn dc) := by
          simp
        have hsz : sizeOf dc ≤ n := by omega
        exact ih dc hsz x (by simpa [childrenOf] using hrec)

theorem specSub_file (n : String) (r : Except String String) (p : String) :
    specSub (FSEntry.file n r) p = "" := by
  rw [specSub.eq_def]

theorem specSub_dir (n : String) (c : List FSEntry) (p : String) :
    specSub (FSEntry.dir n c) p = treeRenderSpec c p := by
  rw [specSub.eq_def]

theorem join_nil : String.join [] = "" := rfl

theorem join_cons (a : String) (l : List String) :
    String.join (a :: l) = a ++ String.join l := by
  apply String.ext
  simp [String.join_eq]

theorem renderLevel_nil (pre : String) : renderLevel [] pre = "" := by
  rw [renderLevel.eq_def]

theorem renderSub_file (n : String) (r : Except String String) (p : String) :
    renderSub (FSEntry.file n r) p = "" := by
  rw [renderSub.eq_def]

theorem renderSub_dir (n : String) (c : List FSEntry) (p : String) :
    renderSub (FSEntry.dir n c) p = build_file_tree c p := by
  rw [renderSub.eq_def]

theorem renderLevel_cons (e : FSEntry) (rest : List FSEntry) (pre : String) :
    renderLevel (e :: rest) pre =
      (pre ++ (if rest.isEmpty then "└── " else "├── ") ++ childName e ++ "\n") ++
        (renderSub e (pre ++ (if rest.isEmpty then "    " else "│   ")) ++
          renderLevel rest pre) := by
  rw [renderLevel.eq_def]
  simp only [String.append_assoc]

theorem specLevel_none {items : List FSEntry} (h : items.getLast? = none) (pre : String) :
    specLevel items pre = "" := by
  rw [specLevel.eq_def]
  split
  · rfl
  · rename_i lastE heq
    rw [h] at heq
    cases heq

theorem specLevel_some {items : List FSEntry} {lastE : FSEntry}
    (h : items.getLast? = some lastE) (pre : String) :
    specLevel items pre =
      String.join (items.dropLast.map fun e =>
        pre ++ "├── " ++ childName e ++ "\n" ++ specSub e (pre ++ "│   ")) ++
        (pre ++ "└── " ++ childName lastE ++ "\n" ++ specSub lastE (pre ++ "    ")) := by
  rw [specLevel.eq_def]
  split
  · rename_i heq
    rw [h] at heq
    cases heq
  · rename_i lastE' heq
    rw [h] at heq
    cases heq
    rw [List.attach_map_val items.dropLast (fun e =>
      pre ++ "├── " ++ childName e ++ "\n" ++ specSub e (pre ++ "│   "))]

theorem renderLevel_eq_specLevel :
    ∀ (items : List FSEntry),
      (∀ e ∈ items, ∀ p, renderSub e p = specSub e p) →
      ∀ pre, renderLevel items pre = specLevel items pre := by
  intro items
  induction items with
  | nil =>
    intro _ pre
    rw [renderLevel_nil,
      specLevel_none (show (([] : List FSEntry).getLast? = none) from rfl)]
  | cons e rest ih =>
    intro hsub pre
    have hs : ∀ p, renderSub e p = specSub e p :=
      fun p => hsub e (List.mem_cons_self e rest) p
    cases rest with
    | nil =>
      rw [renderLevel_cons, renderLevel_nil,
        specLevel_some (show ([e].getLast? = some e) from rfl)]
      simp [hs, String.append_assoc, join_nil]
    | cons r rs =>
      cases hlast : (r :: rs).getLast? with
      | none => simp at hlast
      | some lastE =>
        have hlast' : ((e :: r :: rs).getLast? = some lastE) := by
          rw [List.getLast?_cons_cons]
          exact hlast
        rw [renderLevel_cons, specLevel_some hlast',
          ih (fun x hx p => hsub x (List.mem_cons_of_mem e hx) p) pre,
          specLevel_some hlast]
        simp [hs, String.append_assoc, join_cons]

theorem build_file_tree_eq_treeRenderSpec_aux :
    ∀ (n : Nat) (entries : List FSEntry), sizeOf entries ≤ n →
      ∀ pre, build_file_tree entries pre = treeRenderSpec entries pre := by
  intro n
  induction n with
  | zero =>
    intro entries h pre
    exact absurd h (by cases entries <;> simp)
  | succ n ih =>
    intro entries hle pre
    rw [build_file_tree, treeRenderSpec]
    apply renderLevel_eq_specLevel
    intro e he p
    have hsz : sizeOf e < sizeOf entries := sizeOf_lt_of_mem_sortedFiltered he
    cases e with
    | file fn fr => rw [renderSub_file, specSub_file]
    | dir dn dc =>
      rw [renderSub_dir, specSub_dir]
      apply ih
      have hlt : sizeOf dc < sizeOf (FSEntry.dir dn dc) := by simp
      omega

theorem sorted_insertSorted {e : FSEntry} {l : List FSEntry}
    (h : List.Sorted (fun a b => childName a ≤ childName b) l) :
    List.Sorted (fun a b => childName a ≤ childName b) (insertSorted e l) := by
  induction l with
  | nil => simp [insertSorted]
  | cons x xs ih =>
    rw [List.sorted_cons] at h
    by_cases hc : childName e ≤ childName x
    · rw [insertSorted, if_pos hc]
      rw [List.sorted_cons]
      refine ⟨?_, List.sorted_cons.mpr h⟩
      intro b hb
      rcases List.mem_cons.mp hb with rfl | hb
      · exact hc
      · exact le_trans hc (h.1 b hb)
    · rw [insertSorted, if_neg hc]
      rw [List.sorted_cons]
      refine ⟨?_, ih h.2⟩
      intro b hb
      rcases mem_insertSorted.mp hb with rfl | hb
      · exact le_of_not_le hc
      · exact h.1 b hb

theorem sorted_sortByName (l : List FSEntry) :
    List.Sorted (fun a b => childName a ≤ childName b) (sortByName l) := by
  induction l with
  | nil => simp [sortByName]
  | cons x xs ih => exact sorted_insertSorted ih

theorem sorted_sortedFiltered (entries : List FSEntry) :
    List.Sorted (fun a b => childName a ≤ childName b) (sortedFiltered entries) := by
  rw [sortedFiltered]
  exact (sorted_sortByName entries).filter _

/-- C7: the renderer agrees, for every directory tree and prefix, with the
rendering the specification describes — the non-excluded entries of each
level in lexicographic order, `├── ` on every entry but the last, `└── `
on the last, prefixes extended by `│   ` (or `    ` for the last entry),
depth-first — and the names listed at each level are in lexicographic
(code-point) order. -/
theorem c7_renderer_matches_spec :
    (∀ (entries : List FSEntry) (pre : String),
        build_file_tree entries pre = treeRenderSpec entries pre) ∧
    ∀ entries : List FSEntry,
      List.Sorted (· ≤ ·) ((sortedFiltered entries).map childName) := by
  constructor
  · intro entries pre
    exact build_file_tree_eq_treeRenderSpec_aux (sizeOf entries) entries le_rfl pre
  · intro entries
    exact List.Pairwise.map childName (fun a b h => h) (sorted_sortedFiltered entries)

theorem scrubGitEnv_nil : scrubGitEnv [] = [] := by
  rw [scrubGitEnv.eq_def]

theorem scrubGitEnv_cons (e : FSEntry) (rest : List FSEntry) :
    scrubGitEnv (e :: rest) =
      (if keepEntry e then [scrubChildren e] else []) ++ scrubGitEnv rest := by
  rw [scrubGitEnv.eq_def]

theorem scrubChildren_file (n : String) (r : Except String String) :
    scrubChildren (FSEntry.file n r) = FSEntry.file n r := by
  rw [scrubChildren.eq_def]

theorem scrubChildren_dir (n : String) (c : List FSEntry) :
    scrubChildren (FSEntry.dir n c) = FSEntry.dir n (scrubGitEnv c) := by
  rw [scrubChildren.eq_def]

theorem childName_scrubChildren (e : FSEntry) :
    childName (scrubChildren e) = childName e := by
  cases e with
  | file n r => rw [scrubChildren_file]
  | dir n c => rw [scrubChildren_dir]; rfl

theorem keepEntry_scrubChildren (e : FSEntry) :
    keepEntry (scrubChildren e) = keepEntry e := by
  rw [keepEntry, keepEntry, childName_scrubChildren]

theorem scrubGitEnv_eq_filter_map (l : List FSEntry) :
    scrubGitEnv l = (l.filter keepEntry).map scrubChildren := by
  induction l with
  | nil => rw [scrubGitEnv_nil]; rfl
  | cons e rest ih =>
    by_cases h : keepEntry e
    · rw [scrubGitEnv_cons, if_pos h, List.filter_cons, if_pos h, List.map_cons, ih]
      rfl
    · rw [scrubGitEnv_cons, if_neg h, List.filter_cons, if_neg h, ih]
      rfl

theorem insertSorted_of_forall_le {e : FSEntry} {m : List FSEntry}
    (h : ∀ y ∈ m, childName e ≤ childName y) : insertSorted e m = e :: m := by
  cases m with
  | nil => rfl
  | cons x xs => rw [insertSorted, if_pos (h x (List.mem_cons_self x xs))]

theorem insertSorted_map_scrub (e : FSEntry) (m : List FSEntry) :
    insertSorted (scrubChildren e) (m.map scrubChildren) =
      (insertSorted e m).map scrubChildren := by
  induction m with
  | nil => rfl
  | cons x xs ih =>
    by_cases h : childName e ≤ childName x
    · simp [insertSorted, childName_scrubChildren, h]
    · simp [insertSorted, childName_scrubChildren, h, ih]

theorem sortByName_map_scrub (m : List FSEntry) :
    sortByName (m.map scrubChildren) = (sortByName m).map scrubChildren := by
  induction m with
  | nil => rfl
  | cons x xs ih => rw [List.map_cons, sortByName, sortByName, ih, insertSorted_map_scrub]

theorem filter_map_scrub (m : List FSEntry) :
    (m.map scrubChildren).filter keepEntry = (m.filter keepEntry).map scrubChildren := by
  induction m with
  | nil => rfl
  | cons x xs ih =>
    by_cases h : keepEntry x
    · rw [List.map_cons, List.filter_cons, if_pos (by rw [keepEntry_scrubChildren]; exact h),
        List.filter_cons, if_pos h, List.map_cons, ih]
    · rw [List.map_cons, List.filter_cons, if_neg (by rw [keepEntry_scrubChildren]; simpa using h),
        List.filter_cons, if_neg h, ih]

theorem filter_insertSorted (e : FSEntry) :
    ∀ (m : List FSEntry), List.Sorted (fun a b => childName a ≤ childName b) m →
      List.filter keepEntry (insertSorted e m) =
        if keepEntry e then insertSorted e (List.filter keepEntry m)
        else List.filter keepEntry m := by
  intro m
  induction m with
  | nil =>
    intro _
    by_cases h : keepEntry e <;> simp [insertSorted, List.filter_cons, h]
  | cons x xs ih =>
    intro hs
    rw [List.sorted_cons] at hs
    by_cases hex : childName e ≤ childName x
    · rw [insertSorted, if_pos hex]
      by_cases hpe : keepEntry e
      · rw [if_pos hpe]
        have hall : ∀ y ∈ List.filter keepEntry (x :: xs), childName e ≤ childName y := by
          intro y hy
          have hy' := List.mem_of_mem_filter hy
          rcases List.mem_cons.mp hy' with rfl | hy''
          · exact hex
          · exact le_trans hex (hs.1 y hy'')
        rw [insertSorted_of_forall_le hall, List.filter_cons, if_pos hpe]
      · rw [if_neg hpe, List.filter_cons, if_neg hpe]
    · rw [insertSorted, if_neg hex]
      by_cases hpx : keepEntry x
      · rw [List.filter_cons, if_pos hpx, ih hs.2, List.filter_cons, if_pos hpx]
        by_cases hpe : keepEntry e
        · rw [if_pos hpe, if_pos hpe, insertSorted, if_neg hex]
        · rw [if_neg hpe, if_neg hpe]
      · rw [List.filter_cons, if_neg hpx, ih hs.2, List.filter_cons, if_neg hpx]

theorem filter_sort_filter (l : List FSEntry) :
    List.filter keepEntry (sortByName (List.filter keepEntry l)) =
      List.filter keepEntry (sortByName l) := by
  induction l with
  | nil => rfl
  | cons e rest ih =>
    by_cases hpe : keepEntry e
    · rw [List.filter_cons, if_pos hpe, sortByName, sortByName,
        filter_insertSorted e _ (sorted_sortByName _), if_pos hpe,
        filter_insertSorted e _ (sorted_sortByName _), if_pos hpe, ih]
    · rw [List.filter_cons, if_neg hpe, sortByName,
        filter_insertSorted e _ (sorted_sortByName _), if_neg hpe, ih]

theorem renderLevel_map_scrub :
    ∀ (items : List FSEntry),
      (∀ e ∈ items, ∀ p, renderSub (scrubChildren e) p = renderSub e p) →
      ∀ pre, renderLevel (items.map scrubChildren) pre = renderLevel items pre := by
  intro items
  induction items with
  | nil => intro _ _; rfl
  | cons e rest ih =>
    intro hsub pre
    rw [List.map_cons, renderLevel_cons, renderLevel_cons]
    have hie : (rest.map scrubChildren).isEmpty = rest.isEmpty := by
      cases rest <;> rfl
    rw [hie, childName_scrubChildren, hsub e (List.mem_cons_self e rest) _,
      ih (fun x hx p => hsub x (List.mem_cons_of_mem e hx) p) pre]

theorem build_file_tree_scrub_aux :
    ∀ (n : Nat) (entries : List FSEntry), sizeOf entries ≤ n →
      ∀ pre, build_file_tree (scrubGitEnv entries) pre = build_file_tree entries pre := by
  intro n
  induction n with
  | zero =>
    intro entries h pre
    exact absurd h (by cases entries <;> simp)
  | succ n ih =>
    intro entries hle pre
    rw [build_file_tree, build_file_tree]
    have hsf : sortedFiltered (scrubGitEnv entries) =
        (sortedFiltered entries).map scrubChildren := by
      rw [sortedFiltered, sortedFiltered, scrubGitEnv_eq_filter_map, sortByName_map_scrub,
        filter_map_scrub, filter_sort_filter]
    rw [hsf]
    apply renderLevel_map_scrub
    intro e he p
    cases e with
    | file fn fr => rw [scrubChildren_file]
    | dir dn dc =>
      rw [scrubChildren_dir, renderSub_dir, renderSub_dir]
      apply ih
      have h1 : sizeOf (FSEntry.dir dn dc) < sizeOf entries :=
        sizeOf_lt_of_mem_sortedFiltered he
      have h2 : sizeOf dc < sizeOf (FSEntry.dir dn dc) := by simp
      omega

/-- C6: at no depth does the Tree Renderer's output list an entry for the
version-control metadata folder `.git` or for an entry named `.env`:
neither name is among the names `build_file_tree` emits a listing line
for, and the rendered string is unchanged when every `.git` and `.env`
entry is deleted from the tree beforehand. -/
theorem c6_tree_never_lists_git_or_env (entries : List FSEntry) :
    (".git" ∉ treeListedNames entries ∧ ".env" ∉ treeListedNames entries) ∧
    ∀ pre, build_file_tree entries pre = build_file_tree (scrubGitEnv entries) pre := by
  refine ⟨⟨?_, ?_⟩, ?_⟩
  · intro hx
    exact (treeListedNames_ne_git_env (sizeOf entries) entries le_rfl ".git" hx).1 rfl
  · intro hx
    exact (treeListedNames_ne_git_env (sizeOf entries) entries le_rfl ".env" hx).2 rfl
  · intro pre
    exact (build_file_tree_scrub_aux (sizeOf entries) entries le_rfl pre).symm

end RepoExtractor
